import Mathlib

/-!
Verification of the polylib polynomial library.

The development shallowly embeds the library's core
(src/src/polynom.rs, src/src/custom_types/zn.rs, src/src/lib.rs):

* The u32 exponents of terms are modelled as Nat.
* The Rust traits One and Zero (src/src/lib.rs) are modelled by Mathlib's
  One and Zero classes.  The repository's blanket implementation of the
  membership tests (src/src/lib.rs, is_zero is equality with zero and
  is_one is equality with one) is modelled by decidable equality.
* The PhantomData variable tags X and Y carry no runtime data; a polynomial
  is its list of (coefficient, exponent) pairs.
* Vec::sort_by_key is a stable sort by key; it is modelled by a stable
  insertion sort (each element is inserted after existing equal keys).
* The unconditional runtime failures of the library (Rust panics) are
  modelled by Except.error carrying the panic message.
* The u32 arithmetic inside the modular type Zn is modelled on Nat with an
  explicit wrap modulo 2^32 after every machine operation.
-/

namespace Polylib

/-- Embedding of the private struct Powered (src/src/polynom.rs, line 116):
a variable raised to a u32 power.  Only the power field carries data. -/
structure Powered where
  power : Nat
deriving DecidableEq

/-- Embedding of impl Add for Powered (src/src/polynom.rs, lines 153-159):
exponents add when two terms are multiplied.  The addition
self.power + rhs.power is performed on u32, so it wraps modulo 2^32. -/
def Powered.addU32 (a b : Powered) : Powered :=
  ⟨(a.power + b.power) % 4294967296⟩

/-- Embedding of the while loop of Powered::substitude (src/src/polynom.rs,
lines 141-147): binary exponentiation.  While pow > 0: if the low bit of pow
is set, multiply the accumulator by to_mul on the right; then square to_mul
and shift pow right by one. -/
def powLoop {M : Type} [One M] [Mul M] (pow : Nat) (ans toMul : M) : M :=
  if h : pow = 0 then ans
  else powLoop (pow / 2) (if pow % 2 = 1 then ans * toMul else ans) (toMul * toMul)
termination_by pow
decreasing_by exact Nat.div_lt_self (Nat.pos_of_ne_zero h) (by omega)

/-- Embedding of Powered::substitude (src/src/polynom.rs, lines 129-150):
early return of one() when the power is 0, otherwise the squaring loop
started with accumulator one(). -/
def Powered.substitude {M : Type} [One M] [Mul M] (pw : Powered) (value : M) : M :=
  if pw.power = 0 then 1
  else powLoop pw.power 1 value

/-- Embedding of Polynomial<T, U> (src/src/polynom.rs, line 216): the Vec of
(coefficient, Powered) pairs, with Powered represented by its power.  The
compile-time variable tag U is dropped. -/
@[ext]
structure Polynomial (α : Type) where
  members : List (α × Nat)
deriving DecidableEq

/-- Embedding of the variable marker X<T> (src/src/polynom.rs, line 22). -/
structure X (α : Type)

/-- Embedding of X::pow (src/src/polynom.rs, lines 34-38): the polynomial
with the single term (one, power). -/
def X.pow {α : Type} [One α] (_x : X α) (power : Nat) : Polynomial α :=
  ⟨[((1 : α), power)]⟩

/-- Embedding of the loop of Polynomial::from_coefs (src/src/polynom.rs,
lines 236-251): position power holds its coefficient, zero coefficients are
skipped. -/
def fromCoefsGo {α : Type} [Zero α] [DecidableEq α] : List α → Nat → List (α × Nat)
  | [], _ => []
  | c :: rest, power =>
    if c = 0 then fromCoefsGo rest (power + 1)
    else (c, power) :: fromCoefsGo rest (power + 1)

/-- Embedding of Polynomial::from_coefs (src/src/polynom.rs, lines 236-251). -/
def Polynomial.from_coefs {α : Type} [Zero α] [DecidableEq α] (coefs : List α) :
    Polynomial α :=
  ⟨fromCoefsGo coefs 0⟩

/-- Embedding of Polynomial::new_const (src/src/polynom.rs, lines 261-265). -/
def Polynomial.new_const {α : Type} (value : α) : Polynomial α :=
  ⟨[(value, 0)]⟩

/-- Embedding of Polynomial::len (src/src/polynom.rs, lines 439-441). -/
def Polynomial.len {α : Type} (p : Polynomial α) : Nat :=
  p.members.length

/-- Embedding of impl Add for Polynomial (src/src/polynom.rs, lines 444-453):
the right operand's members are pushed onto the left operand's Vec. -/
instance {α : Type} : Add (Polynomial α) := ⟨fun p q => ⟨p.members ++ q.members⟩⟩

/-- Embedding of impl Add<T> for Polynomial (src/src/polynom.rs, lines
455-462): a bare ring value is pushed as a constant term. -/
def Polynomial.addConst {α : Type} (p : Polynomial α) (c : α) : Polynomial α :=
  ⟨p.members ++ [(c, 0)]⟩

/-- Embedding of impl Neg for Polynomial (src/src/polynom.rs, lines 464-478). -/
instance {α : Type} [Neg α] : Neg (Polynomial α) :=
  ⟨fun p => ⟨p.members.map fun m => (-m.1, m.2)⟩⟩

/-- Embedding of impl Sub<A> for Polynomial (src/src/polynom.rs, lines
480-490): the negated bare value is pushed as a constant term. -/
def Polynomial.subConst {α : Type} [Neg α] (p : Polynomial α) (c : α) : Polynomial α :=
  ⟨p.members ++ [(-c, 0)]⟩

/-- Embedding of impl Sub for Polynomial (src/src/polynom.rs, lines 492-501). -/
instance {α : Type} [Neg α] : Sub (Polynomial α) := ⟨fun p q => p + (-q)⟩

/-- Embedding of impl Mul<T> for Polynomial (src/src/polynom.rs, lines
503-518): scalar multiplication of every coefficient on the right. -/
def Polynomial.mulConst {α : Type} [Mul α] (p : Polynomial α) (c : α) : Polynomial α :=
  ⟨p.members.map fun m => (m.1 * c, m.2)⟩

/-- Embedding of impl Mul for Polynomial (src/src/polynom.rs, lines 520-540):
the full Cartesian expansion, coefficients multiply and exponents add, in the
nested iteration order of the source.  The u32 exponent sum of the source is
idealized here as unbounded Nat addition, adequate whenever every exponent
sum stays below 2^32; the faithful wrapping embedding is
Polynomial.mulU32 below. -/
instance {α : Type} [Mul α] : Mul (Polynomial α) :=
  ⟨fun p q => ⟨p.members.flatMap fun m1 => q.members.map fun m2 => (m1.1 * m2.1, m1.2 + m2.2)⟩⟩

/-- Embedding of impl Mul for Polynomial (src/src/polynom.rs, lines 520-540)
with the exponent sum performed by the u32 Powered addition, wrapping modulo
2^32 as the machine operation does. -/
def Polynomial.mulU32 {α : Type} [Mul α] (p q : Polynomial α) : Polynomial α :=
  ⟨p.members.flatMap fun m1 =>
    q.members.map fun m2 =>
      (m1.1 * m2.1, ((Powered.mk m1.2).addU32 (Powered.mk m2.2)).power)⟩

/-- Embedding of One::one for Polynomial (src/src/polynom.rs, lines 546-548):
the constant polynomial holding the coefficient ring's one. -/
instance {α : Type} [One α] : One (Polynomial α) := ⟨Polynomial.new_const 1⟩

/-- Embedding of One::is_one for Polynomial (src/src/polynom.rs, lines
550-552), which unconditionally fails with the given message. -/
def Polynomial.is_one {α : Type} [One α] (_p : Polynomial α) : Except String Bool :=
  .error "is_one - hard operation for polynom"

/-- Embedding of Zero::zero for Polynomial (src/src/polynom.rs, lines
559-561): the constant polynomial holding the coefficient ring's zero. -/
instance {α : Type} [Zero α] : Zero (Polynomial α) := ⟨Polynomial.new_const 0⟩

/-- Embedding of Zero::is_zero for Polynomial (src/src/polynom.rs, lines
563-565), which unconditionally fails with the given message. -/
def Polynomial.is_zero {α : Type} [Zero α] (_p : Polynomial α) : Except String Bool :=
  .error "is_zero - hard operation for polynom"

/-- Embedding of Polynomial::pow (src/src/polynom.rs, lines 277-285): the
term-power primitive is reused with the polynomial itself as ring value. -/
def Polynomial.pow {α : Type} [One α] [Mul α] (p : Polynomial α) (power : Nat) :
    Polynomial α :=
  (Powered.mk power).substitude p

/-- Embedding of Polynomial::substitude (src/src/polynom.rs, lines 301-316):
fold over the members, accumulator started at zero, coefficient multiplying
the powered point on the left. -/
def Polynomial.substitude {α χ υ : Type} [One χ] [Mul χ] [Zero υ] [Add υ] [HMul α χ υ]
    (p : Polynomial α) (point : χ) : υ :=
  p.members.foldl (fun ans m => ans + m.1 * (Powered.mk m.2).substitude point) 0

/-- Embedding of Polynomial::rsubstitude (src/src/polynom.rs, lines 334-349):
same fold, the powered point multiplying the coefficient on the left. -/
def Polynomial.rsubstitude {α χ υ : Type} [One χ] [Mul χ] [Zero υ] [Add υ] [HMul χ α υ]
    (p : Polynomial α) (value : χ) : υ :=
  p.members.foldl (fun ans m => ans + (Powered.mk m.2).substitude value * m.1) 0

/-- Single insertion step of the stable sort by exponent that models
self.members.sort_by_key (src/src/polynom.rs, line 388).  The element is
placed after every element of equal or smaller key, so the relative order of
equal keys is preserved, exactly as Rust's stable sort_by_key does. -/
def insertSorted {α : Type} (x : α × Nat) : List (α × Nat) → List (α × Nat)
  | [] => [x]
  | y :: ys => if y.2 ≤ x.2 then y :: insertSorted x ys else x :: y :: ys

/-- Stable sort by exponent modelling Vec::sort_by_key on the power field
(src/src/polynom.rs, line 388). -/
def sortByPower {α : Type} (l : List (α × Nat)) : List (α × Nat) :=
  l.foldl (fun acc x => insertSorted x acc) []

/-- Embedding of the merge loop of Polynomial::reduce (src/src/polynom.rs,
lines 390-404): running (coef, pow) pair, equal exponents are summed into
coef, a finished pair is emitted only when its coefficient is not zero. -/
def mergeRun {α : Type} [Add α] [Zero α] [DecidableEq α] (coef : α) (pow : Nat) :
    List (α × Nat) → List (α × Nat)
  | [] => if coef = 0 then [] else [(coef, pow)]
  | m :: rest =>
    if m.2 = pow then mergeRun (coef + m.1) pow rest
    else (if coef = 0 then [] else [(coef, pow)]) ++ mergeRun m.1 m.2 rest

/-- Embedding of Polynomial::reduce (src/src/polynom.rs, lines 380-406):
return self when the member list is empty, otherwise sort by exponent and
run the merge loop started on the first sorted pair. -/
def Polynomial.reduce {α : Type} [Add α] [Zero α] [DecidableEq α] (p : Polynomial α) :
    Polynomial α :=
  match sortByPower p.members with
  | [] => p
  | m :: rest => ⟨mergeRun m.1 m.2 rest⟩

/-- Modelled from the spec for the refinement claim C4: the n-fold product
p * p * ... * p computed by repeated polynomial multiplication (the empty
product being the constant one polynomial). -/
def iterMul {α : Type} [One α] [Mul α] (p : Polynomial α) : Nat → Polynomial α
  | 0 => 1
  | 1 => p
  | n + 2 => iterMul p (n + 1) * p

/-- Embedding of Zn::new (src/src/custom_types/zn.rs, lines 21-23): the held
u32 value is the remainder of the input by the modulus. -/
def znNew (N v : Nat) : Nat :=
  v % N

/-- Embedding of impl Add for Zn (src/src/custom_types/zn.rs, lines 61-69):
(self.0 + rhs.0) % N, with the u32 addition wrapping modulo 2^32. -/
def znAdd (N a b : Nat) : Nat :=
  ((a + b) % 4294967296) % N

/-- Embedding of impl Sub for Zn (src/src/custom_types/zn.rs, lines 77-85):
(self.0 + N - rhs.0) % N, with each u32 operation wrapping modulo 2^32. -/
def znSub (N a b : Nat) : Nat :=
  ((((a + N) % 4294967296) + 4294967296 - b) % 4294967296) % N

/-- Embedding of impl Mul for Zn (src/src/custom_types/zn.rs, lines 93-101):
(self.0 * rhs.0) % N, with the u32 multiplication wrapping modulo 2^32. -/
def znMul (N a b : Nat) : Nat :=
  ((a * b) % 4294967296) % N

/-- The concrete polynomial x^2 + 1 over the integers (x.pow(2) + 1 in the
library), used by the spec's substitution example. -/
def x2p1 : Polynomial Int :=
  ((X.mk : X Int).pow 2).addConst 1

/-- The concrete polynomial x - 1 over the integers (x.pow(1) - 1 in the
library), used by the spec's exponentiation example. -/
def xSubOne : Polynomial Int :=
  ((X.mk : X Int).pow 1).subConst 1

/-- The polynomial x^(2^31) over the integers, a legal library value whose
self-product overflows the u32 exponent sum. -/
def xBig : Polynomial Int :=
  (X.mk : X Int).pow 2147483648

example : x2p1.members = [(1, 2), (1, 0)] := by decide
example : xSubOne.members = [(1, 1), (-1, 0)] := by decide
example : (Polynomial.from_coefs ([-1, 3, -3, 1] : List Int)).members =
    [(-1, 0), (3, 1), (-3, 2), (1, 3)] := by decide
example : (xSubOne * xSubOne).members = [(1, 2), (-1, 1), (-1, 1), (1, 0)] := by decide

/-- Unfolding lemma for the Cartesian product polynomial multiplication. -/
theorem Polynomial.mul_members {α : Type} [Mul α] (p q : Polynomial α) :
    (p * q).members =
      p.members.flatMap fun m1 => q.members.map fun m2 => (m1.1 * m2.1, m1.2 + m2.2) :=
  rfl

/-- The Cartesian expansion multiplication is associative on the nose: both
sides enumerate the coefficient and exponent triples in the same order. -/
theorem polyMul_assoc {α : Type} [Semigroup α] (p q r : Polynomial α) :
    p * q * r = p * (q * r) := by
  ext1
  simp only [Polynomial.mul_members, List.flatMap_assoc, List.flatMap_map, List.map_flatMap,
    List.map_map]
  simp [Function.comp_def, mul_assoc, Nat.add_assoc]

/-- The constant one polynomial is a left identity on the nose. -/
theorem polyOne_mul {α : Type} [MulOneClass α] (p : Polynomial α) : 1 * p = p := by
  ext1
  show ((Polynomial.new_const 1 : Polynomial α) * p).members = p.members
  simp [Polynomial.mul_members, Polynomial.new_const]

/-- The constant one polynomial is a right identity on the nose. -/
theorem polyMul_one {α : Type} [MulOneClass α] (p : Polynomial α) : p * 1 = p := by
  ext1
  show (p * (Polynomial.new_const 1 : Polynomial α)).members = p.members
  simp [Polynomial.mul_members, Polynomial.new_const]

/-- When the coefficients form a monoid, the polynomials with the library's
Cartesian multiplication and constant one form a monoid. -/
instance {α : Type} [Monoid α] : Monoid (Polynomial α) where
  mul_assoc := polyMul_assoc
  one_mul := polyOne_mul
  mul_one := polyMul_one

/-- Invariant of the binary exponentiation loop over any monoid: the loop
computes the accumulator times the running base raised to the remaining
exponent. -/
theorem powLoop_eq {M : Type} [Monoid M] (pow : Nat) :
    ∀ ans toMul : M, powLoop pow ans toMul = ans * toMul ^ pow := by
  induction pow using Nat.strong_induction_on with
  | _ pow ih =>
    intro ans toMul
    rw [powLoop]
    by_cases h : pow = 0
    · simp [h]
    · rw [dif_neg h, ih (pow / 2) (Nat.div_lt_self (Nat.pos_of_ne_zero h) (by omega))]
      have hsq : (toMul * toMul) ^ (pow / 2) = toMul ^ (2 * (pow / 2)) := by
        rw [pow_mul, pow_two]
      by_cases h2 : pow % 2 = 1
      · have hp : pow = 2 * (pow / 2) + 1 := by omega
        rw [if_pos h2, hsq, mul_assoc]
        conv_rhs => rw [hp, pow_succ']
      · have hp : pow = 2 * (pow / 2) := by omega
        rw [if_neg h2, hsq, ← hp]

/-- Powered::substitude computes the monoid power of its argument. -/
theorem Powered.substitude_eq_pow {M : Type} [Monoid M] (pw : Powered) (v : M) :
    pw.substitude v = v ^ pw.power := by
  unfold Powered.substitude
  by_cases h : pw.power = 0
  · simp [h]
  · rw [if_neg h, powLoop_eq, one_mul]

/-- Polynomial::pow coincides with the monoid power of the polynomial
monoid, for coefficients forming a monoid. -/
theorem Polynomial.pow_eq_npow {α : Type} [Monoid α] (p : Polynomial α) (n : Nat) :
    p.pow n = p ^ n :=
  Powered.substitude_eq_pow (Powered.mk n) p

/-- The spec-side repeated multiplication also computes the monoid power. -/
theorem iterMul_eq_pow {α : Type} [Monoid α] (p : Polynomial α) :
    ∀ n : Nat, iterMul p n = p ^ n
  | 0 => by rw [iterMul, pow_zero]
  | 1 => by rw [iterMul, pow_one]
  | n + 2 => by rw [iterMul, iterMul_eq_pow p (n + 1), ← pow_succ]

/-- Unfolding equation for insertSorted on the empty list. -/
theorem insertSorted_nil {α : Type} (x : α × Nat) : insertSorted x [] = [x] :=
  rfl

/-- Unfolding equation for insertSorted on a cons cell. -/
theorem insertSorted_cons {α : Type} (x y : α × Nat) (ys : List (α × Nat)) :
    insertSorted x (y :: ys) =
      if y.2 ≤ x.2 then y :: insertSorted x ys else x :: y :: ys :=
  rfl

/-- Unfolding equation for mergeRun on the empty list. -/
theorem mergeRun_nil {α : Type} [Add α] [Zero α] [DecidableEq α] (c : α) (p : Nat) :
    mergeRun c p [] = if c = 0 then [] else [(c, p)] :=
  rfl

/-- Unfolding equation for mergeRun on a cons cell. -/
theorem mergeRun_cons {α : Type} [Add α] [Zero α] [DecidableEq α] (c : α) (p : Nat)
    (m : α × Nat) (rest : List (α × Nat)) :
    mergeRun c p (m :: rest) =
      if m.2 = p then mergeRun (c + m.1) p rest
      else (if c = 0 then [] else [(c, p)]) ++ mergeRun m.1 m.2 rest :=
  rfl

/-- Membership in an insertion step. -/
theorem mem_insertSorted {α : Type} (x a : α × Nat) (l : List (α × Nat)) :
    a ∈ insertSorted x l ↔ a = x ∨ a ∈ l := by
  induction l with
  | nil => simp [insertSorted_nil]
  | cons y ys ih =>
    rw [insertSorted_cons]
    by_cases h : y.2 ≤ x.2
    · rw [if_pos h]
      simp only [List.mem_cons, ih]
      tauto
    · rw [if_neg h]
      simp only [List.mem_cons]

/-- The insertion step preserves sortedness by exponent. -/
theorem pairwise_le_insertSorted {α : Type} (x : α × Nat) (l : List (α × Nat))
    (hl : l.Pairwise fun a b => a.2 ≤ b.2) :
    (insertSorted x l).Pairwise fun a b => a.2 ≤ b.2 := by
  induction l with
  | nil => simp [insertSorted_nil]
  | cons y ys ih =>
    rw [List.pairwise_cons] at hl
    rw [insertSorted_cons]
    by_cases h : y.2 ≤ x.2
    · rw [if_pos h, List.pairwise_cons]
      refine ⟨fun z hz => ?_, ih hl.2⟩
      rcases (mem_insertSorted x z ys).1 hz with rfl | hz2
      · exact h
      · exact hl.1 z hz2
    · rw [if_neg h, List.pairwise_cons]
      refine ⟨fun z hz => ?_, List.Pairwise.cons hl.1 hl.2⟩
      rcases List.mem_cons.1 hz with rfl | hz2
      · omega
      · exact le_trans (by omega) (hl.1 z hz2)

/-- The sort loop keeps the accumulator sorted by exponent. -/
theorem sortByPower_sorted_aux {α : Type} :
    ∀ (l acc : List (α × Nat)), acc.Pairwise (fun a b => a.2 ≤ b.2) →
      (l.foldl (fun acc x => insertSorted x acc) acc).Pairwise fun a b => a.2 ≤ b.2
  | [], _, h => h
  | x :: xs, acc, h =>
    sortByPower_sorted_aux xs (insertSorted x acc) (pairwise_le_insertSorted x acc h)

/-- The stable sort by exponent returns a list sorted by exponent. -/
theorem sortByPower_sorted {α : Type} (l : List (α × Nat)) :
    (sortByPower l).Pairwise fun a b => a.2 ≤ b.2 :=
  sortByPower_sorted_aux l [] (List.Pairwise.nil)

/-- The insertion step grows the length by one. -/
theorem length_insertSorted {α : Type} (x : α × Nat) (l : List (α × Nat)) :
    (insertSorted x l).length = l.length + 1 := by
  induction l with
  | nil => rfl
  | cons y ys ih =>
    rw [insertSorted_cons]
    by_cases h : y.2 ≤ x.2
    · rw [if_pos h]
      simp [ih]
    · rw [if_neg h]
      simp

/-- The sort loop's output length is the accumulator length plus the input
length. -/
theorem length_sortByPower_aux {α : Type} :
    ∀ (l acc : List (α × Nat)),
      (l.foldl (fun acc x => insertSorted x acc) acc).length = acc.length + l.length
  | [], _ => rfl
  | x :: xs, acc => by
    rw [List.foldl_cons, length_sortByPower_aux xs (insertSorted x acc),
      length_insertSorted, List.length_cons]
    omega

/-- Sorting preserves length, so only the empty list sorts to the empty
list. -/
theorem sortByPower_eq_nil {α : Type} {l : List (α × Nat)}
    (h : sortByPower l = []) : l = [] := by
  have hlen := length_sortByPower_aux l []
  rw [sortByPower] at h
  rw [h] at hlen
  have hl0 : l.length = 0 := by simpa using hlen.symm
  exact List.length_eq_zero.1 hl0

/-- Invariants of the merge loop on a weakly sorted tail: the emitted list
is strictly sorted by exponent, carries no zero coefficient, and all its
exponents are at least the running exponent. -/
theorem mergeRun_invariants {α : Type} [Add α] [Zero α] [DecidableEq α] :
    ∀ (rest : List (α × Nat)) (coef : α) (pow : Nat),
      rest.Pairwise (fun a b => a.2 ≤ b.2) →
      (∀ m ∈ rest, pow ≤ m.2) →
      (mergeRun coef pow rest).Pairwise (fun a b => a.2 < b.2) ∧
        (∀ m ∈ mergeRun coef pow rest, m.1 ≠ 0) ∧
        (∀ m ∈ mergeRun coef pow rest, pow ≤ m.2) := by
  intro rest
  induction rest with
  | nil =>
    intro coef pow _ _
    rw [mergeRun_nil]
    by_cases h : coef = 0
    · simp [h]
    · simp [h]
  | cons m rest ih =>
    intro coef pow hsorted hge
    rw [List.pairwise_cons] at hsorted
    rw [mergeRun_cons]
    by_cases h : m.2 = pow
    · rw [if_pos h]
      exact ih (coef + m.1) pow hsorted.2 fun b hb => h ▸ hsorted.1 b hb
    · rw [if_neg h]
      have hpow_lt : pow < m.2 := lt_of_le_of_ne (hge m (by simp)) (Ne.symm h)
      obtain ⟨h1, h2, h3⟩ := ih m.1 m.2 hsorted.2 hsorted.1
      by_cases hc : coef = 0
      · rw [if_pos hc, List.nil_append]
        exact ⟨h1, h2, fun b hb => le_trans (le_of_lt hpow_lt) (h3 b hb)⟩
      · rw [if_neg hc, List.singleton_append]
        refine ⟨List.Pairwise.cons (fun b hb => lt_of_lt_of_le hpow_lt (h3 b hb)) h1,
          fun b hb => ?_, fun b hb => ?_⟩
        · rcases List.mem_cons.1 hb with rfl | hb2
          · exact hc
          · exact h2 b hb2
        · rcases List.mem_cons.1 hb with rfl | hb2
          · exact le_refl pow
          · exact le_trans (le_of_lt hpow_lt) (h3 b hb2)

/-- The merge loop is the identity on an already canonical list: strictly
sorted exponents, all above the running exponent, and no zero coefficient. -/
theorem mergeRun_of_canonical {α : Type} [Add α] [Zero α] [DecidableEq α] :
    ∀ (rest : List (α × Nat)) (c : α) (e : Nat),
      c ≠ 0 → (∀ m ∈ rest, e < m.2) → rest.Pairwise (fun a b => a.2 < b.2) →
      (∀ m ∈ rest, m.1 ≠ 0) → mergeRun c e rest = (c, e) :: rest := by
  intro rest
  induction rest with
  | nil =>
    intro c e hc _ _ _
    rw [mergeRun_nil, if_neg hc]
  | cons m rest ih =>
    intro c e hc hlt hp hnz
    have hne : m.2 ≠ e := by
      have := hlt m (by simp)
      omega
    rw [List.pairwise_cons] at hp
    rw [mergeRun_cons, if_neg hne, if_neg hc, List.singleton_append,
      ih m.1 m.2 (hnz m (by simp)) hp.1 hp.2 fun b hb => hnz b (by simp [hb])]

/-- Inserting an element whose exponent dominates the whole list appends it
at the end. -/
theorem insertSorted_of_all_le {α : Type} (x : α × Nat) :
    ∀ l : List (α × Nat), (∀ y ∈ l, y.2 ≤ x.2) → insertSorted x l = l ++ [x] := by
  intro l
  induction l with
  | nil => intro _; rfl
  | cons y ys ih =>
    intro hall
    rw [insertSorted_cons, if_pos (hall y (by simp)), ih fun z hz => hall z (by simp [hz]),
      List.cons_append]

/-- The stable sort by exponent is the identity on sorted input. -/
theorem sortByPower_of_sorted {α : Type} (l : List (α × Nat))
    (h : l.Pairwise fun a b => a.2 ≤ b.2) : sortByPower l = l := by
  induction l using List.reverseRecOn with
  | nil => rfl
  | append_singleton l x ih =>
    rw [List.pairwise_append] at h
    rw [sortByPower, List.foldl_append]
    have hstep : List.foldl (fun acc x => insertSorted x acc) [] l = l := ih h.1
    rw [hstep]
    exact insertSorted_of_all_le x l fun y hy => h.2.2 y hy x (by simp)

/-- Unfolding of reduce when the sorted member list is empty: the source
returns self. -/
theorem Polynomial.reduce_of_sort_nil {α : Type} [Add α] [Zero α] [DecidableEq α]
    (p : Polynomial α) (h : sortByPower p.members = []) : p.reduce = p := by
  unfold Polynomial.reduce
  rw [h]

/-- Unfolding of reduce when the sorted member list is nonempty: the merge
loop starts on the first sorted pair. -/
theorem Polynomial.reduce_of_sort_cons {α : Type} [Add α] [Zero α] [DecidableEq α]
    (p : Polynomial α) (m : α × Nat) (rest : List (α × Nat))
    (h : sortByPower p.members = m :: rest) : p.reduce = ⟨mergeRun m.1 m.2 rest⟩ := by
  unfold Polynomial.reduce
  rw [h]

/-- Reduce is the identity on a polynomial already in canonical form. -/
theorem Polynomial.reduce_of_canonical {α : Type} [Add α] [Zero α] [DecidableEq α]
    (q : Polynomial α) (h1 : q.members.Pairwise fun a b => a.2 < b.2)
    (h2 : ∀ m ∈ q.members, m.1 ≠ 0) : q.reduce = q := by
  have hsort : sortByPower q.members = q.members :=
    sortByPower_of_sorted _ (h1.imp le_of_lt)
  cases hm : q.members with
  | nil => exact Polynomial.reduce_of_sort_nil q (by rw [hsort, hm])
  | cons m rest =>
    have hred := Polynomial.reduce_of_sort_cons q m rest (by rw [hsort, hm])
    rw [hred]
    rw [hm] at h1 h2
    rw [List.pairwise_cons] at h1
    ext1
    show mergeRun m.1 m.2 rest = q.members
    rw [mergeRun_of_canonical rest m.1 m.2 (h2 m (by simp)) h1.1 h1.2
      (fun b hb => h2 b (by simp [hb])), hm]

/-- Sorting a list with one element appended inserts that element into the
sorted rest. -/
theorem sortByPower_append_single {α : Type} (l : List (α × Nat)) (x : α × Nat) :
    sortByPower (l ++ [x]) = insertSorted x (sortByPower l) := by
  rw [sortByPower, sortByPower, List.foldl_append]
  rfl

/-- Inserting the pair (zero, 0) anywhere into the tail of a merge run at
exponent 0 does not change the merge result, provided adding zero on the
right is the identity. -/
theorem mergeRun_insert_zero {α : Type} [Add α] [Zero α] [DecidableEq α]
    (hz : ∀ c : α, c + 0 = c) :
    ∀ (s : List (α × Nat)) (c : α),
      mergeRun c 0 (insertSorted ((0 : α), 0) s) = mergeRun c 0 s := by
  intro s
  induction s with
  | nil =>
    intro c
    simp [insertSorted_nil, mergeRun_cons, hz]
  | cons y ys ih =>
    intro c
    by_cases h : y.2 ≤ 0
    · have h0 : y.2 = 0 := Nat.le_zero.1 h
      rw [insertSorted_cons, if_pos h, mergeRun_cons, if_pos h0, mergeRun_cons, if_pos h0]
      exact ih (c + y.1)
    · rw [insertSorted_cons, if_neg h]
      show mergeRun c 0 (((0 : α), 0) :: y :: ys) = mergeRun c 0 (y :: ys)
      rw [mergeRun_cons, if_pos rfl]
      show mergeRun (c + 0) 0 (y :: ys) = mergeRun c 0 (y :: ys)
      rw [hz]

/-! Claim theorems. -/

/-- C1: For every exponent e and every value v of a type with multiplicative
identity and multiplication (the e-fold product presupposes the monoid
laws), Powered::substitude returns v^e, the e-fold product of v with one()
as the empty product; in particular, when e = 0 it returns the
multiplicative identity even when v is the additive identity. -/
theorem c1_powered_substitude_is_pow :
    (∀ (M : Type) [Monoid M] (e : Nat) (v : M), (Powered.mk e).substitude v = v ^ e) ∧
      (∀ (M : Type) [MonoidWithZero M], (Powered.mk 0).substitude (0 : M) = 1) := by
  constructor
  · intro M _ e v
    exact Powered.substitude_eq_pow (Powered.mk e) v
  · intro M _
    rw [Powered.substitude_eq_pow]
    exact pow_zero 0

/-- C2: For every polynomial p, reduce(p) satisfies the canonical-form
invariant: terms strictly ordered by increasing exponent, no coefficient
equal to the additive identity, and at most one term per distinct
exponent. -/
theorem c2_reduce_canonical_form :
    ∀ (R : Type) [Add R] [Zero R] [DecidableEq R] (p : Polynomial R),
      p.reduce.members.Pairwise (fun a b => a.2 < b.2) ∧
        (∀ m ∈ p.reduce.members, m.1 ≠ 0) ∧
        (p.reduce.members.map Prod.snd).Nodup := by
  intro R _ _ _ p
  cases hs : sortByPower p.members with
  | nil =>
    have hred := Polynomial.reduce_of_sort_nil p hs
    have hm := sortByPower_eq_nil hs
    rw [hred, hm]
    simp
  | cons m rest =>
    have hred := Polynomial.reduce_of_sort_cons p m rest hs
    have hsorted := sortByPower_sorted p.members
    rw [hs, List.pairwise_cons] at hsorted
    obtain ⟨h1, h2, _⟩ := mergeRun_invariants rest m.1 m.2 hsorted.2 hsorted.1
    rw [hred]
    refine ⟨h1, h2, ?_⟩
    show (List.map Prod.snd (mergeRun m.1 m.2 rest)).Pairwise fun a b => a ≠ b
    rw [List.pairwise_map]
    exact h1.imp fun hab => Nat.ne_of_lt hab

/-- C3, counterexample: at p = q = x^(2^31) the u32 exponent sum wraps, so
the single product term has exponent 0, not e1 + e2 = 2^32; the claim's
universal pair characterization fails on this in-scope input. -/
theorem c3_mul_counterexample :
    (xBig.mulU32 xBig).members = [((1 : Int), 0)] ∧
      (xBig.mulU32 xBig).members ≠
        (xBig.members.product xBig.members).map fun t => (t.1.1 * t.2.1, t.1.2 + t.2.2) := by
  decide

/-- C3, amended: the product of two polynomials has length len(p) * len(q),
and its terms are exactly the pairs (c1 * c2, (e1 + e2) mod 2^32) over the
Cartesian product of the two term lists, with no merging or normalization
performed; whenever no exponent sum reaches 2^32 (no u32 overflow) the
exponents are exactly e1 + e2. -/
theorem c3_mul_full_distribution :
    ∀ (R : Type) [Mul R] (p q : Polynomial R),
      (p.mulU32 q).len = p.len * q.len ∧
        (p.mulU32 q).members =
          (p.members.product q.members).map
            (fun t => (t.1.1 * t.2.1, (t.1.2 + t.2.2) % 4294967296)) ∧
        ((∀ m1 ∈ p.members, ∀ m2 ∈ q.members, m1.2 + m2.2 < 4294967296) →
          (p.mulU32 q).members =
            (p.members.product q.members).map fun t => (t.1.1 * t.2.1, t.1.2 + t.2.2)) := by
  intro R _ p q
  have hwrap : (p.mulU32 q).members =
      (p.members.product q.members).map
        fun t => (t.1.1 * t.2.1, (t.1.2 + t.2.2) % 4294967296) := by
    show (p.members.flatMap fun m1 =>
        q.members.map fun m2 =>
          (m1.1 * m2.1, ((Powered.mk m1.2).addU32 (Powered.mk m2.2)).power)) = _
    simp [Powered.addU32, List.product, List.map_flatMap, List.map_map, Function.comp_def]
  refine ⟨?_, hwrap, ?_⟩
  · show (p.mulU32 q).members.length = p.members.length * q.members.length
    show (p.members.flatMap fun m1 =>
        q.members.map fun m2 =>
          (m1.1 * m2.1, ((Powered.mk m1.2).addU32 (Powered.mk m2.2)).power)).length = _
    rw [List.length_flatMap]
    simp [Function.comp_def]
  · intro hov
    rw [hwrap]
    apply List.map_congr_left
    intro t ht
    have htm : t.1 ∈ p.members ∧ t.2 ∈ q.members := by
      simp only [List.product, List.mem_flatMap, List.mem_map] at ht
      obtain ⟨a, ha, b, hb, rfl⟩ := ht
      exact ⟨ha, hb⟩
    rw [Nat.mod_eq_of_lt (hov t.1 htm.1 t.2 htm.2)]

/-- Witness for the amended C3 at the concrete polynomials x - 1 and
x^2 + 1 over the integers, whose exponent sums do not overflow. -/
theorem c3_mul_full_distribution_witness :
    (xSubOne.mulU32 x2p1).members =
      (xSubOne.members.product x2p1.members).map fun t => (t.1.1 * t.2.1, t.1.2 + t.2.2) :=
  (c3_mul_full_distribution Int xSubOne x2p1).2.2 (by decide)

/-- C5: Reduction is idempotent: reducing a reduced polynomial returns
exactly the same term list. -/
theorem c5_reduce_idempotent :
    ∀ (R : Type) [Add R] [Zero R] [DecidableEq R] (p : Polynomial R),
      p.reduce.reduce = p.reduce := by
  intro R _ _ _ p
  cases hs : sortByPower p.members with
  | nil =>
    have hred := Polynomial.reduce_of_sort_nil p hs
    rw [hred]
    exact hred
  | cons m rest =>
    have hred := Polynomial.reduce_of_sort_cons p m rest hs
    have hsorted := sortByPower_sorted p.members
    rw [hs, List.pairwise_cons] at hsorted
    obtain ⟨h1, h2, _⟩ := mergeRun_invariants rest m.1 m.2 hsorted.2 hsorted.1
    rw [hred]
    exact Polynomial.reduce_of_canonical _ h1 h2

/-- C6: Over a commutative ring, forward and reverse substitution agree at
every point and on every (not necessarily reduced) polynomial; in
particular x^2 + 1 at 4 yields 17 both ways over the integers. -/
theorem c6_substitution_consistency :
    (∀ (R : Type) [CommRing R] (p : Polynomial R) (v : R),
        (p.substitude v : R) = p.rsubstitude v) ∧
      (x2p1.substitude (4 : Int) : Int) = 17 ∧
      (x2p1.rsubstitude (4 : Int) : Int) = 17 := by
  refine ⟨?_, ?_, ?_⟩
  · intro R _ p v
    unfold Polynomial.substitude Polynomial.rsubstitude
    congr 1
    funext ans m
    rw [mul_comm]
  · simp [x2p1, Polynomial.substitude, Polynomial.addConst, X.pow,
      Powered.substitude_eq_pow]
  · simp [x2p1, Polynomial.rsubstitude, Polynomial.addConst, X.pow,
      Powered.substitude_eq_pow]

/-- C7: When adding the ring's zero on the right is the identity on
coefficients, p + Polynomial::zero() reduces to exactly the canonical term
list of p reduced alone. -/
theorem c7_add_zero_reduce :
    ∀ (R : Type) [Add R] [Zero R] [DecidableEq R], (∀ c : R, c + 0 = c) →
      ∀ p : Polynomial R, (p + (0 : Polynomial R)).reduce.members = p.reduce.members := by
  intro R _ _ _ hz p
  have hmem : (p + (0 : Polynomial R)).members = p.members ++ [((0 : R), 0)] := rfl
  have hsort : sortByPower ((p + (0 : Polynomial R)).members)
      = insertSorted ((0 : R), 0) (sortByPower p.members) := by
    rw [hmem, sortByPower_append_single]
  cases hs : sortByPower p.members with
  | nil =>
    have hp : p.members = [] := sortByPower_eq_nil hs
    have h2 : sortByPower ((p + (0 : Polynomial R)).members) = [((0 : R), 0)] := by
      rw [hsort, hs, insertSorted_nil]
    have hredq := Polynomial.reduce_of_sort_cons (p + 0) ((0 : R), 0) [] h2
    have hredp := Polynomial.reduce_of_sort_nil p hs
    rw [hredq, hredp, hp]
    show mergeRun (0 : R) 0 [] = []
    rw [mergeRun_nil, if_pos rfl]
  | cons m rest =>
    have hredp := Polynomial.reduce_of_sort_cons p m rest hs
    by_cases hm2 : m.2 = 0
    · have hins : insertSorted ((0 : R), 0) (m :: rest)
          = m :: insertSorted ((0 : R), 0) rest := by
        rw [insertSorted_cons, if_pos (le_of_eq hm2)]
      have h2 : sortByPower ((p + (0 : Polynomial R)).members)
          = m :: insertSorted ((0 : R), 0) rest := by
        rw [hsort, hs, hins]
      have hredq := Polynomial.reduce_of_sort_cons (p + 0) m
        (insertSorted ((0 : R), 0) rest) h2
      rw [hredq, hredp]
      show mergeRun m.1 m.2 (insertSorted ((0 : R), 0) rest) = mergeRun m.1 m.2 rest
      rw [hm2]
      exact mergeRun_insert_zero hz rest m.1
    · have hins : insertSorted ((0 : R), 0) (m :: rest) = ((0 : R), 0) :: m :: rest := by
        rw [insertSorted_cons, if_neg (fun hle => hm2 (Nat.le_zero.1 hle))]
      have h2 : sortByPower ((p + (0 : Polynomial R)).members)
          = ((0 : R), 0) :: m :: rest := by
        rw [hsort, hs, hins]
      have hredq := Polynomial.reduce_of_sort_cons (p + 0) ((0 : R), 0) (m :: rest) h2
      rw [hredq, hredp]
      show mergeRun (0 : R) 0 (m :: rest) = mergeRun m.1 m.2 rest
      rw [mergeRun_cons, if_neg hm2, if_pos rfl, List.nil_append]

/-- Witness for C7 at the concrete ring Int and the polynomial x^2 + 1. -/
theorem c7_add_zero_reduce_witness :
    (x2p1 + (0 : Polynomial Int)).reduce.members = x2p1.reduce.members :=
  c7_add_zero_reduce Int (fun c => add_zero c) x2p1

/-- C8: The identity-membership tests on a generic polynomial fail
unconditionally with the library's panic messages, regardless of the
polynomial's contents. -/
theorem c8_identity_tests_fail :
    ∀ (R : Type) [Zero R] [One R] (p : Polynomial R),
      p.is_zero = Except.error "is_zero - hard operation for polynom" ∧
        p.is_one = Except.error "is_one - hard operation for polynom" :=
  fun _ _ _ _ => ⟨rfl, rfl⟩

/-- C9, counterexample: with the u32 arithmetic wrapping modulo 2^32, the
claim fails for the modulus 2^31 + 1 at the in-range pair (2^31, 2^31):
the wrapped sum gives residue 0 while the mathematically correct residue of
2^31 + 2^31 modulo 2^31 + 1 is 2^31 - 1. -/
theorem c9_zn_mod_counterexample :
    0 < 2147483649 ∧ (2147483648 : Nat) < 2147483649 ∧
      znAdd 2147483649 2147483648 2147483648 ≠ (2147483648 + 2147483648) % 2147483649 := by
  decide

/-- C9, amended: whenever the intermediate u32 computation does not
overflow (a + b, a + N, respectively a * b, below 2^32), the Zn operators
return the mathematically correct residue modulo N in [0, N); the spec's
particular sums 32 + 99 give 1 modulo 5 and 31 modulo 100. -/
theorem c9_zn_mod_amended :
    (∀ N a b : Nat, 0 < N → a < N → b < N → a + b < 4294967296 →
        znAdd N a b = (a + b) % N ∧ znAdd N a b < N) ∧
      (∀ N a b : Nat, 0 < N → a < N → b < N → a + N < 4294967296 →
        (znSub N a b : Int) = ((a : Int) - b) % N ∧ znSub N a b < N) ∧
      (∀ N a b : Nat, 0 < N → a < N → b < N → a * b < 4294967296 →
        znMul N a b = (a * b) % N ∧ znMul N a b < N) ∧
      znAdd 5 (znNew 5 32) (znNew 5 99) = 1 ∧
      znAdd 100 (znNew 100 32) (znNew 100 99) = 31 := by
  refine ⟨?_, ?_, ?_, by decide, by decide⟩
  · intro N a b hN _ _ hof
    rw [znAdd, Nat.mod_eq_of_lt hof]
    exact ⟨rfl, Nat.mod_lt _ hN⟩
  · intro N a b hN _ hb hof
    have hb' : b ≤ a + N := by omega
    have hinner : (((a + N) % 4294967296) + 4294967296 - b) % 4294967296 = a + N - b := by
      omega
    rw [znSub, hinner]
    constructor
    · push_cast [hb']
      have heq : (a : Int) + N - b = (a - b) + N * 1 := by ring
      rw [heq, Int.add_mul_emod_self_left]
    · exact Nat.mod_lt _ hN
  · intro N a b hN _ _ hof
    rw [znMul, Nat.mod_eq_of_lt hof]
    exact ⟨rfl, Nat.mod_lt _ hN⟩

/-- Witness for the amended C9 at modulus 5 with the pair (2, 4). -/
theorem c9_zn_mod_amended_witness :
    (znAdd 5 2 4 = (2 + 4) % 5 ∧ znAdd 5 2 4 < 5) ∧
      ((znSub 5 2 4 : Int) = (((2 : Nat) : Int) - ((4 : Nat) : Int)) % ((5 : Nat) : Int) ∧
        znSub 5 2 4 < 5) ∧
      (znMul 5 2 4 = (2 * 4) % 5 ∧ znMul 5 2 4 < 5) :=
  ⟨c9_zn_mod_amended.1 5 2 4 (by decide) (by decide) (by decide) (by decide),
    c9_zn_mod_amended.2.1 5 2 4 (by decide) (by decide) (by decide) (by decide),
    c9_zn_mod_amended.2.2.1 5 2 4 (by decide) (by decide) (by decide) (by decide)⟩

/-- C10: For every polynomial p, including the empty one, p.pow(0) is the
constant-one polynomial: a single term with coefficient one and
exponent 0. -/
theorem c10_pow_zero_is_one :
    ∀ (R : Type) [One R] [Mul R] (p : Polynomial R),
      (p.pow 0).members.length = 1 ∧ (p.pow 0).members = [((1 : R), 0)] :=
  fun _ _ _ _ => ⟨rfl, rfl⟩

end Polylib
